import Mathlib

/-!
Shallow embedding of the virtual filesystem core of this repository
(`src/vfsEmulator.py`, classes `VFSNode` and `VirtualFileSystem`), together
with theorems settling the frozen claims about it.

Modelling conventions:

* Python strings are Lean `String`s; where character-level reasoning is
  needed the model works on `String.data : List Char`.
* `pathlib.Path(s).parts` (POSIX) is modelled by `posixParts`: the string is
  split on `'/'`, empty segments and `"."` segments are dropped, and for a
  path with a leading `'/'` an anchor segment (`"/"`, or `"//"` for exactly
  two leading slashes) is prepended.  This mirrors CPython's documented and
  observed behaviour (`Path('/a').parts == ('/', 'a')`,
  `Path('a/./b').parts == ('a', 'b')`, `Path('..').parts == ('..',)`).
* A `VFSNode` owns `name`, `is_directory`, `content` and an ordered children
  list; Python's insertion-ordered `dict` keyed by child name is modelled by
  that list, looked up by node name (`_create_path` only ever inserts a key
  that is absent and updates values in place, so the association is faithful
  and keys stay unique and equal to the stored node's name).
* Python's parent pointers cannot live in a purely inductive tree, so the
  `current_dir` node reference is modelled by the node's access path from
  the root (`currentDir : List String`); following a parent pointer is
  `List.dropLast`.  Nodes are never detached or re-parented by the source
  (`add_child` is only called for absent keys), so a node reference and its
  root path determine each other and the model is faithful.
* Exceptions: `_create_path` can only raise on `parts[-1]` when the token
  list is empty; `create_path_run` returns the post-state paired with a
  Boolean `raised` flag, placing the failure exactly where Python raises
  (after the loop over `parts[:-1]`, which is a no-op for an empty list).
  All query operations are total and signal failure with `none`/`[]`
  exactly as the source returns `None`/`[]`.
-/

/-! Tokenizer: model of `pathlib.Path(...).parts` on POSIX. -/

/-- Model of Python `str.split('/')` on character lists (keeps empty chunks). -/
def splitSlashAux : List Char → List Char → List (List Char)
  | [], acc => [acc.reverse]
  | c :: rest, acc =>
    if c = '/' then acc.reverse :: splitSlashAux rest []
    else splitSlashAux rest (c :: acc)

def splitSlash (cs : List Char) : List (List Char) :=
  splitSlashAux cs []

/-- Non-anchor components of `Path(s).parts`: split on `'/'`, drop empty and
`"."` components (pathlib normalises single dots away but keeps `".."`). -/
def posixSegsL (cs : List Char) : List (List Char) :=
  (splitSlash cs).filter (fun t => decide (t ≠ [] ∧ t ≠ ['.']))

/-- The anchor component of an absolute POSIX path: exactly two leading
slashes give the anchor `"//"`, any other number gives `"/"`. -/
def posixAnchor (cs : List Char) : List Char :=
  if cs.take 3 = ['/', '/', '/'] then ['/']
  else if cs.take 2 = ['/', '/'] then ['/', '/']
  else ['/']

def posixPartsL (cs : List Char) : List (List Char) :=
  if cs.head? = some '/' then posixAnchor cs :: posixSegsL cs
  else posixSegsL cs

/-- Model of `pathlib.Path(s).parts` for the POSIX flavour used by the code. -/
def posixParts (s : String) : List String :=
  (posixPartsL s.data).map String.mk

/-! The node type (`class VFSNode`). -/

inductive VFSNode where
  | mk (name : String) (is_directory : Bool) (content : String)
       (children : List VFSNode)

def VFSNode.name : VFSNode → String
  | .mk n _ _ _ => n

def VFSNode.is_directory : VFSNode → Bool
  | .mk _ d _ _ => d

def VFSNode.content : VFSNode → String
  | .mk _ _ c _ => c

def VFSNode.children : VFSNode → List VFSNode
  | .mk _ _ _ ch => ch

/-- Child lookup, i.e. `part in node.children` / `node.children[part]` on the
insertion-ordered dict (keys are always the stored nodes' names). -/
def VFSNode.getChild (n : VFSNode) (s : String) : Option VFSNode :=
  n.children.find? (fun c => c.name == s)

/-- Replace the first child whose name is `s` (dict value update in place,
preserving insertion order). -/
def setChildList : List VFSNode → String → VFSNode → List VFSNode
  | [], _, _ => []
  | c :: rest, s, c' =>
    if c.name == s then c' :: rest else c :: setChildList rest s c'

def VFSNode.setChild : VFSNode → String → VFSNode → VFSNode
  | .mk n d ct ch, s, c' => .mk n d ct (setChildList ch s c')

/-- `add_child` as used by `_create_path`: the name is always absent, so the
dict insertion appends at the end of the iteration order. -/
def VFSNode.addChild : VFSNode → VFSNode → VFSNode
  | .mk n d ct ch, c => .mk n d ct (ch ++ [c])

/-! `VirtualFileSystem` state and `_create_path`. -/

structure VFS where
  root : VFSNode
  currentDir : List String

/-- Constructor state: empty root directory named `""`, cursor at root. -/
def initVFS : VFS :=
  ⟨.mk "" true "" [], []⟩

/-- Final-segment update of `_create_path` on an existing node: the
`is_directory` flag is overwritten unconditionally; `content` only when the
new entry is a file; children are untouched. -/
def overwriteNode (c : VFSNode) (isDir : Bool) (content : String) : VFSNode :=
  .mk c.name isDir (if isDir then c.content else content) c.children

/-- The walking core of `_create_path`: `parts` are the intermediate segments
(`parts[:-1]` in the source), `last` the final segment.  An absent
intermediate becomes a fresh directory; a present intermediate that is a
file is coerced to a directory (content cleared); the final segment is
created or overwritten last-write-wins. -/
def create_nodes : VFSNode → List String → String → Bool → String → VFSNode
  | n, [], last, d, ct =>
    match n.getChild last with
    | none => n.addChild (.mk last d ct [])
    | some c => n.setChild last (overwriteNode c d ct)
  | n, p :: rest, last, d, ct =>
    match n.getChild p with
    | none => n.addChild (create_nodes (.mk p true "" []) rest last d ct)
    | some c =>
      n.setChild p
        (create_nodes
          (if c.is_directory then c else .mk c.name true "" c.children)
          rest last d ct)

/-- `_create_path`, with the Boolean recording whether Python raised
(`parts[-1]` on an empty tuple).  The raise happens after the loop over
`parts[:-1]`, which for an empty tuple has done nothing, so the state
returned alongside `true` is the untouched input state. -/
def create_path_run (v : VFS) (path : String) (isDir : Bool)
    (content : String) : VFS × Bool :=
  let parts := posixParts path
  match parts.getLast? with
  | none => (v, true)
  | some last =>
    (⟨create_nodes v.root parts.dropLast last isDir content, v.currentDir⟩,
     false)

def create_path (v : VFS) (path : String) (isDir : Bool)
    (content : String) : VFS :=
  (create_path_run v path isDir content).1

/-! Path resolution (`_resolve_path`). -/

/-- Fetch the node sitting at a root path. -/
def findNode : VFSNode → List String → Option VFSNode
  | n, [] => some n
  | n, p :: rest =>
    match n.getChild p with
    | some c => findNode c rest
    | none => none

/-- The segment-consumption loop of `_resolve_path`, tracking the current
node by its root path `cur`.  `"."` is skipped, `".."` follows the parent
pointer — `None` (failure) if the current node is the root, whose parent is
absent — and any other segment must name a child of the current node (the
`is_directory` flag is never consulted). -/
def resolveParts (root : VFSNode) : List String → List String →
    Option (List String)
  | cur, [] => some cur
  | cur, part :: rest =>
    if part = "." then resolveParts root cur rest
    else if part = ".." then
      if cur = [] then none else resolveParts root cur.dropLast rest
    else
      match findNode root cur with
      | none => none
      | some n =>
        if (n.getChild part).isSome then resolveParts root (cur ++ [part]) rest
        else none

/-- Python `path.startswith('/')`. -/
def isAbsolute (s : String) : Bool :=
  decide (s.data.head? = some '/')

/-- `_resolve_path`: absolute paths start at the root with the anchor part
skipped (`parts[1:]`), relative ones at the current directory with all
parts.  The result is the resolved node's root path. -/
def resolve_path (v : VFS) (path : String) : Option (List String) :=
  if isAbsolute path then
    resolveParts v.root [] ((posixParts path).drop 1)
  else
    resolveParts v.root v.currentDir (posixParts path)

/-! Query operations. -/

/-- `read_file`: content of the resolved node if it exists and is a file,
otherwise `None`. -/
def read_file (v : VFS) (path : String) : Option String :=
  match resolve_path v path with
  | none => none
  | some p =>
    match findNode v.root p with
    | none => none
    | some n => if n.is_directory then none else some n.content

/-- One row of `list_directory` output. -/
structure DirEntry where
  name : String
  etype : String
  size : Nat
deriving DecidableEq

/-- Python's sort key `(type != 'directory', name)` as a Boolean `≤`. -/
def entryLE (a b : DirEntry) : Bool :=
  (a.etype != "directory") < (b.etype != "directory") ||
    ((a.etype != "directory") = (b.etype != "directory") &&
      decide (a.name ≤ b.name))

def entryOf (c : VFSNode) : DirEntry :=
  ⟨c.name, if c.is_directory then "directory" else "file",
   if c.is_directory then 0 else c.content.length⟩

/-- Stable insertion of an element after every already-placed element that
compares `≤` to it. -/
def insertStable (le : DirEntry → DirEntry → Bool) (x : DirEntry) :
    List DirEntry → List DirEntry
  | [] => [x]
  | y :: ys => if le y x then y :: insertStable le x ys else x :: y :: ys

/-- Stable sort by repeated stable insertion in input order.  Python's
`sorted` is a stable sort, and for a total preorder comparator the output
of a stable sort is uniquely determined by the input order, so this
structurally recursive sort computes exactly what `sorted(...)` returns. -/
def sortEntries (le : DirEntry → DirEntry → Bool) (l : List DirEntry) :
    List DirEntry :=
  l.foldl (fun acc x => insertStable le x acc) []

def entriesOf (n : VFSNode) : List DirEntry :=
  sortEntries entryLE (n.children.map entryOf)

/-- The target selection of `list_directory`: an empty path means the
current directory (Python string truthiness), otherwise the path is
resolved. -/
def lsTarget (v : VFS) (path : String) : Option VFSNode :=
  if path = "" then findNode v.root v.currentDir
  else
    match resolve_path v path with
    | none => none
    | some p => findNode v.root p

/-- `list_directory`: the empty list both on resolution failure and on a
non-directory target (the source returns `[]`, not `None`); otherwise the
children as entries, directories first then files, each group sorted by
name (Python `sorted` is stable; the key is a total preorder, so the stable
sort result is unique and `mergeSort` matches it). -/
def list_directory (v : VFS) (path : String) : List DirEntry :=
  match lsTarget v path with
  | none => []
  | some n => if n.is_directory then entriesOf n else []

/-! `change_directory` and `get_current_path`. -/

/-- `change_directory`: literal `".."` moves to the parent when one exists
(no-op success at root); literal `"~"` or `"/"` resets to root; any other
target is resolved and must be an existing directory. -/
def change_directory (v : VFS) (path : String) : VFS × Bool :=
  if path = ".." then
    (if v.currentDir = [] then v else ⟨v.root, v.currentDir.dropLast⟩, true)
  else if path = "~" ∨ path = "/" then
    (⟨v.root, []⟩, true)
  else
    match resolve_path v path with
    | none => (v, false)
    | some p =>
      match findNode v.root p with
      | none => (v, false)
      | some n =>
        if n.is_directory then (⟨v.root, p⟩, true) else (v, false)

/-- Python `'/'.join` on character lists. -/
def joinSlash : List (List Char) → List Char
  | [] => []
  | [l] => l
  | l :: rest => l ++ '/' :: joinSlash rest

/-- `get_current_path`: names collected from the current node up to (and
excluding) the root, reversed, joined with `/` and prefixed with `/`; the
root itself renders as `"/"`.  The collected reversed list is exactly the
cursor's root path. -/
def get_current_path (v : VFS) : String :=
  if v.currentDir = [] then "/"
  else String.mk ('/' :: joinSlash (v.currentDir.map String.data))

/-! `VFSNode.get_path`: `str(Path(self.parent.get_path()) / self.name)`,
with `get_path` of the (parentless) root returning its own name `""`. -/

/-- Model of Python `str(Path(p) / n)` for the argument shapes reachable
here: a name beginning with `'/'` resets the path (POSIX anchored join), an
empty accumulated path (`Path('')` is `Path('.')`) yields the name alone,
a path already ending in `'/'` (only the anchors `"/"` and `"//"`)
concatenates directly, and otherwise a `'/'` separator is inserted. -/
def pathJoin (p n : String) : String :=
  if n.data.head? = some '/' then n
  else if p = "" then n
  else if p.data.getLast? = some '/' then p ++ n
  else p ++ "/" ++ n

/-- `get_path` of the node whose chain of names from the root (excluding the
root's own empty name, which seeds the fold) is `chain`. -/
def get_path (chain : List String) : String :=
  chain.foldl pathJoin ""

/-! `find_files` and `get_directory_tree`. -/

/-- The inner `search_recursive` of `find_files`: for each child in
insertion order, its display path extends the prefix with `/`; a child whose
name contains the search string as a substring is emitted, and directory
children are recursed into. -/
def searchRec (search : String) : VFSNode → String → List String
  | .mk _ _ _ ch, cur =>
    ch.attach.flatMap (fun x =>
      (if decide (List.IsInfix search.data x.1.name.data)
       then [if cur = "/" then "/" ++ x.1.name else cur ++ "/" ++ x.1.name]
       else []) ++
      (if x.1.is_directory then
        searchRec search x.1
          (if cur = "/" then "/" ++ x.1.name else cur ++ "/" ++ x.1.name)
       else []))
  termination_by n => sizeOf n
  decreasing_by
    have hmem := List.sizeOf_lt_of_mem x.2
    simp only [VFSNode.mk.sizeOf_spec]
    omega

/-- `find_files`: resolve the start path (empty result, not an error, on
failure) and run the recursive search from there with the literal start
path as prefix. -/
def find_files (v : VFS) (search : String) (start_path : String) :
    List String :=
  match resolve_path v start_path with
  | none => []
  | some p =>
    match findNode v.root p with
    | none => []
    | some n => searchRec search n start_path

/-- `get_directory_tree` is `_resolve_path` verbatim. -/
def get_directory_tree (v : VFS) (start_path : String) :
    Option (List String) :=
  resolve_path v start_path

/-! Public operations as a step relation, for stating invariants over
arbitrary operation sequences.  The four query operations read the state
and return values without assigning any field of the `VirtualFileSystem`
(visible in the source: none of them writes `self.current_dir` or touches
the tree), so their step is the identity on the state. -/

inductive Op where
  | create (path : String) (isDir : Bool) (content : String)
  | cd (path : String)
  | ls (path : String)
  | cat (path : String)
  | find (search : String) (start_path : String)
  | tree (start_path : String)

def step (v : VFS) : Op → VFS
  | .create p d c => create_path v p d c
  | .cd p => (change_directory v p).1
  | .ls _ => v
  | .cat _ => v
  | .find _ _ => v
  | .tree _ => v

def runOps (ops : List Op) : VFS :=
  ops.foldl step initVFS

/-- A segment that resolution treats as an ordinary child name and that the
tokenizer reproduces verbatim inside a rendered path: nonempty, free of
`'/'`, and neither of pathlib's dot tokens. -/
def normalSeg (s : String) : Prop :=
  s.data ≠ [] ∧ '/' ∉ s.data ∧ s ≠ "." ∧ s ≠ ".."

/-- Structural flag/content relabelling of a tree: names and the children
shape are kept, every `is_directory` flag is passed through `f` and every
`content` through `g`.  Used to state that path resolution never inspects
flags or contents. -/
def mapMetaN (f : Bool → Bool) (g : String → String) : VFSNode → VFSNode
  | .mk n d c ch => .mk n (f d) (g c) (ch.attach.map (fun x => mapMetaN f g x.1))
  termination_by n => sizeOf n
  decreasing_by
    have hmem := List.sizeOf_lt_of_mem x.2
    simp only [VFSNode.mk.sizeOf_spec]
    omega

def mapMetaV (f : Bool → Bool) (g : String → String) (v : VFS) : VFS :=
  ⟨mapMetaN f g v.root, v.currentDir⟩

/-! Basic facts about node projections and child lookup. -/

@[simp]
theorem VFSNode.name_mk (n : String) (d : Bool) (c : String)
    (ch : List VFSNode) : (VFSNode.mk n d c ch).name = n := rfl

@[simp]
theorem VFSNode.is_directory_mk (n : String) (d : Bool) (c : String)
    (ch : List VFSNode) : (VFSNode.mk n d c ch).is_directory = d := rfl

@[simp]
theorem VFSNode.content_mk (n : String) (d : Bool) (c : String)
    (ch : List VFSNode) : (VFSNode.mk n d c ch).content = c := rfl

@[simp]
theorem VFSNode.children_mk (n : String) (d : Bool) (c : String)
    (ch : List VFSNode) : (VFSNode.mk n d c ch).children = ch := rfl

theorem getChild_name {n : VFSNode} {s : String} {c : VFSNode}
    (h : n.getChild s = some c) : c.name = s := by
  have := List.find?_some h
  simpa using this

@[simp]
theorem addChild_name (n c : VFSNode) : (n.addChild c).name = n.name := by
  cases n; rfl

@[simp]
theorem addChild_is_directory (n c : VFSNode) :
    (n.addChild c).is_directory = n.is_directory := by
  cases n; rfl

@[simp]
theorem addChild_content (n c : VFSNode) :
    (n.addChild c).content = n.content := by
  cases n; rfl

@[simp]
theorem addChild_children (n c : VFSNode) :
    (n.addChild c).children = n.children ++ [c] := by
  cases n; rfl

@[simp]
theorem setChild_name (n : VFSNode) (s : String) (c' : VFSNode) :
    (n.setChild s c').name = n.name := by
  cases n; rfl

@[simp]
theorem setChild_is_directory (n : VFSNode) (s : String) (c' : VFSNode) :
    (n.setChild s c').is_directory = n.is_directory := by
  cases n; rfl

@[simp]
theorem setChild_content (n : VFSNode) (s : String) (c' : VFSNode) :
    (n.setChild s c').content = n.content := by
  cases n; rfl

@[simp]
theorem setChild_children (n : VFSNode) (s : String) (c' : VFSNode) :
    (n.setChild s c').children = setChildList n.children s c' := by
  cases n; rfl

@[simp]
theorem overwriteNode_name (c : VFSNode) (d : Bool) (ct : String) :
    (overwriteNode c d ct).name = c.name := rfl

@[simp]
theorem overwriteNode_children (c : VFSNode) (d : Bool) (ct : String) :
    (overwriteNode c d ct).children = c.children := rfl

theorem getChild_eq_find? (n : VFSNode) (s : String) :
    n.getChild s = n.children.find? (fun c => c.name == s) := rfl

theorem getChild_addChild_of_isSome {n : VFSNode} {s : String}
    (c : VFSNode) (h : (n.getChild s).isSome) :
    (n.addChild c).getChild s = n.getChild s := by
  rcases Option.isSome_iff_exists.mp h with ⟨a, ha⟩
  rw [getChild_eq_find?] at ha
  rw [getChild_eq_find?, getChild_eq_find?, addChild_children,
    List.find?_append, ha]
  rfl

theorem getChild_addChild_of_none {n : VFSNode} {s : String}
    (c : VFSNode) (h : n.getChild s = none) :
    (n.addChild c).getChild s = if c.name = s then some c else none := by
  rw [getChild_eq_find?] at h
  rw [getChild_eq_find?, addChild_children, List.find?_append, h]
  by_cases hc : c.name = s
  · have hb : (c.name == s) = true := by simpa using hc
    simp [List.find?, hb, hc]
  · have hb : (c.name == s) = false := by simpa using hc
    simp [List.find?, hb, hc]

theorem find?_setChildList_same {s : String} {c' : VFSNode}
    (hname : c'.name = s) :
    ∀ l : List VFSNode, (l.find? (fun c => c.name == s)).isSome →
      (setChildList l s c').find? (fun c => c.name == s) = some c' := by
  intro l
  induction l with
  | nil => simp [List.find?]
  | cons c rest ih =>
    intro h
    by_cases hc : c.name = s
    · simp [setChildList, hc, List.find?, hname]
    · have hc' : (c.name == s) = false := by simpa using hc
      simp only [setChildList, hc', Bool.false_eq_true, if_false]
      rw [List.find?_cons, hc']
      rw [List.find?_cons, hc'] at h
      exact ih h

theorem find?_setChildList_other {s s' : String} {c' : VFSNode}
    (hname : c'.name = s) (hne : s' ≠ s) :
    ∀ l : List VFSNode,
      (setChildList l s c').find? (fun c => c.name == s') =
        l.find? (fun c => c.name == s') := by
  intro l
  induction l with
  | nil => simp [setChildList]
  | cons c rest ih =>
    by_cases hc : c.name = s
    · have hcs : (c.name == s) = true := by simpa using hc
      have h1 : (c'.name == s') = false := by
        simp [hname]
        exact fun h => hne h.symm
      have h2 : (c.name == s') = false := by
        simp [hc]
        exact fun h => hne h.symm
      simp [setChildList, hcs, List.find?_cons, h1, h2]
    · have hcs : (c.name == s) = false := by simpa using hc
      simp only [setChildList, hcs, Bool.false_eq_true, if_false]
      rw [List.find?_cons, List.find?_cons]
      cases hfind : (c.name == s') with
      | true => rfl
      | false => exact ih

theorem getChild_setChild_same {n : VFSNode} {s : String} {c c' : VFSNode}
    (hname : c'.name = s) (h : n.getChild s = some c) :
    (n.setChild s c').getChild s = some c' := by
  rw [getChild_eq_find?, setChild_children]
  exact find?_setChildList_same hname n.children (by rw [getChild_eq_find?] at h; simp [h])

theorem getChild_setChild_other {n : VFSNode} {s s' : String} {c' : VFSNode}
    (hname : c'.name = s) (hne : s' ≠ s) :
    (n.setChild s c').getChild s' = n.getChild s' := by
  rw [getChild_eq_find?, setChild_children, getChild_eq_find?]
  exact find?_setChildList_other hname hne n.children

/-! Facts about `findNode`. -/

theorem findNode_append (q1 : List String) :
    ∀ (t : VFSNode) (q2 : List String),
      findNode t (q1 ++ q2) = (findNode t q1).bind (fun n => findNode n q2) := by
  induction q1 with
  | nil => intro t q2; rfl
  | cons s q1 ih =>
    intro t q2
    show findNode t (s :: (q1 ++ q2)) = _
    rw [findNode]
    cases h : t.getChild s with
    | none => simp [findNode, h]
    | some c => simp [findNode, h, ih c q2]

theorem isSome_findNode_front {t : VFSNode} {q1 q2 : List String}
    (h : (findNode t (q1 ++ q2)).isSome) : (findNode t q1).isSome := by
  rw [findNode_append] at h
  cases hf : findNode t q1 with
  | none => rw [hf] at h; simp at h
  | some n => simp

theorem isSome_findNode_dropLast {t : VFSNode} {p : List String}
    (h : (findNode t p).isSome) : (findNode t p.dropLast).isSome := by
  rcases List.eq_nil_or_concat p with hnil | ⟨q, a, rfl⟩
  · subst hnil; simpa using h
  · rw [List.concat_eq_append, List.dropLast_concat]
    rw [List.concat_eq_append] at h
    exact isSome_findNode_front h

/-- `findNode` below the top node only looks at children, so two nodes with
equal children lists are interchangeable for every nonempty descent, and
`isSome` transfers for all descents. -/
theorem findNode_congr_children {c₁ c₂ : VFSNode}
    (h : c₁.children = c₂.children) :
    ∀ q : List String, q ≠ [] → findNode c₁ q = findNode c₂ q := by
  intro q hq
  cases q with
  | nil => exact absurd rfl hq
  | cons s rest =>
    rw [findNode, findNode, getChild_eq_find?, getChild_eq_find?, h]

theorem isSome_findNode_congr_children {c₁ c₂ : VFSNode}
    (h : c₁.children = c₂.children) {q : List String}
    (hs : (findNode c₁ q).isSome) : (findNode c₂ q).isSome := by
  cases q with
  | nil => simp [findNode]
  | cons s rest => rw [← findNode_congr_children h (s :: rest) (by simp)]; exact hs

/-! `create_nodes` leaves the top node's own fields alone and only ever adds
reachable paths, never removes one. -/

theorem create_nodes_meta (parts : List String) :
    ∀ (n : VFSNode) (last : String) (d : Bool) (ct : String),
      (create_nodes n parts last d ct).name = n.name ∧
      (create_nodes n parts last d ct).is_directory = n.is_directory ∧
      (create_nodes n parts last d ct).content = n.content := by
  cases parts with
  | nil =>
    intro n last d ct
    rw [create_nodes]
    cases h : n.getChild last with
    | none => simp
    | some c => simp
  | cons p rest =>
    intro n last d ct
    rw [create_nodes]
    cases h : n.getChild p with
    | none => simp
    | some c => simp

theorem create_nodes_name (parts : List String) (n : VFSNode) (last : String)
    (d : Bool) (ct : String) :
    (create_nodes n parts last d ct).name = n.name :=
  (create_nodes_meta parts n last d ct).1

/-- Monotonicity of path creation: every root path that leads to a node
before a `_create_path` walk still leads to a node afterwards (the walk only
inserts children and rewrites flags and contents in place). -/
theorem isSome_findNode_create (q : List String) :
    ∀ (t : VFSNode) (parts : List String) (last : String) (d : Bool)
      (ct : String), (findNode t q).isSome →
      (findNode (create_nodes t parts last d ct) q).isSome := by
  induction q with
  | nil => intro t parts last d ct _; simp [findNode]
  | cons s q' ih =>
    intro t parts last d ct h
    rw [findNode] at h
    cases hg : t.getChild s with
    | none => rw [hg] at h; simp at h
    | some c =>
      rw [hg] at h
      cases parts with
      | nil =>
        rw [create_nodes]
        cases hl : t.getChild last with
        | none =>
          rw [findNode, getChild_addChild_of_isSome _ (by simp [hg]), hg]
          exact h
        | some cl =>
          by_cases hsl : s = last
          · subst hsl
            have hc : c = cl := by rw [hg] at hl; injection hl
            subst hc
            rw [findNode,
              getChild_setChild_same (by simp [getChild_name hl]) hl]
            exact isSome_findNode_congr_children (by simp) h
          · rw [findNode,
              getChild_setChild_other (by simp [getChild_name hl]) hsl, hg]
            exact h
      | cons p rest =>
        rw [create_nodes]
        cases hp : t.getChild p with
        | none =>
          by_cases hsp : s = p
          · subst hsp; rw [hg] at hp; exact absurd hp (by simp)
          · rw [findNode, getChild_addChild_of_isSome _ (by simp [hg]), hg]
            exact h
        | some cp =>
          by_cases hsp : s = p
          · subst hsp
            have hc : c = cp := by rw [hg] at hp; injection hp
            subst hc
            rw [findNode,
              getChild_setChild_same
                (by rw [create_nodes_name]
                    cases hd : c.is_directory <;>
                      simp [getChild_name hp]) hp]
            refine ih _ rest last d ct ?_
            cases hd : c.is_directory with
            | true => simpa [hd] using h
            | false =>
              simp only [hd, Bool.false_eq_true, if_false]
              exact isSome_findNode_congr_children (by simp) h
          · rw [findNode,
              getChild_setChild_other
                (by rw [create_nodes_name]
                    cases hd : cp.is_directory <;>
                      simp [getChild_name hp]) hsp, hg]
            exact h

/-! Facts about `resolveParts`. -/

/-- Resolution starting from a valid root path only ever visits valid root
paths, so a successful resolution result is a valid root path. -/
theorem isSome_findNode_resolveParts {t : VFSNode} (parts : List String) :
    ∀ (cur p : List String), (findNode t cur).isSome →
      resolveParts t cur parts = some p → (findNode t p).isSome := by
  induction parts with
  | nil =>
    intro cur p hcur hres
    rw [resolveParts] at hres
    injection hres with hres
    subst hres; exact hcur
  | cons part rest ih =>
    intro cur p hcur hres
    rw [resolveParts] at hres
    by_cases h1 : part = "."
    · rw [if_pos h1] at hres
      exact ih cur p hcur hres
    · rw [if_neg h1] at hres
      by_cases h2 : part = ".."
      · rw [if_pos h2] at hres
        by_cases h3 : cur = []
        · rw [if_pos h3] at hres; exact absurd hres (by simp)
        · rw [if_neg h3] at hres
          exact ih cur.dropLast p (isSome_findNode_dropLast hcur) hres
      · rw [if_neg h2] at hres
        cases hf : findNode t cur with
        | none => simp only [hf] at hres; exact absurd hres (by simp)
        | some n =>
          simp only [hf] at hres
          by_cases h4 : (n.getChild part).isSome
          · rw [if_pos h4] at hres
            refine ih (cur ++ [part]) p ?_ hres
            rw [findNode_append, hf]
            cases hg : n.getChild part with
            | none => rw [hg] at h4; simp at h4
            | some c => simp [findNode, hg]
          · rw [if_neg h4] at hres; exact absurd hres (by simp)

/-- Segment-wise properties propagate through resolution: if every segment
of the starting path satisfies `P` and every consumed part other than the
navigation tokens `"."` and `".."` satisfies `P`, then every segment of the
resolved path satisfies `P` (`".."` only ever shortens the path and ordinary
segments are appended verbatim). -/
theorem resolveParts_mem {t : VFSNode} (P : String → Prop)
    (parts : List String) :
    ∀ (cur p : List String), (∀ s ∈ cur, P s) →
      (∀ part ∈ parts, part ≠ "." → part ≠ ".." → P part) →
      resolveParts t cur parts = some p → ∀ s ∈ p, P s := by
  induction parts with
  | nil =>
    intro cur p hcur _ hres
    rw [resolveParts] at hres
    injection hres with hres
    subst hres; exact hcur
  | cons part rest ih =>
    intro cur p hcur hparts hres
    rw [resolveParts] at hres
    by_cases h1 : part = "."
    · rw [if_pos h1] at hres
      exact ih cur p hcur (fun q hq => hparts q (List.mem_cons_of_mem _ hq)) hres
    · rw [if_neg h1] at hres
      by_cases h2 : part = ".."
      · rw [if_pos h2] at hres
        by_cases h3 : cur = []
        · rw [if_pos h3] at hres; exact absurd hres (by simp)
        · rw [if_neg h3] at hres
          refine ih cur.dropLast p ?_
            (fun q hq => hparts q (List.mem_cons_of_mem _ hq)) hres
          intro s hs
          exact hcur s (List.dropLast_subset cur hs)
      · rw [if_neg h2] at hres
        cases hf : findNode t cur with
        | none => simp only [hf] at hres; exact absurd hres (by simp)
        | some n =>
          simp only [hf] at hres
          by_cases h4 : (n.getChild part).isSome
          · rw [if_pos h4] at hres
            refine ih (cur ++ [part]) p ?_
              (fun q hq => hparts q (List.mem_cons_of_mem _ hq)) hres
            intro s hs
            rcases List.mem_append.mp hs with hs | hs
            · exact hcur s hs
            · rw [List.mem_singleton] at hs
              subst hs
              exact hparts s (List.mem_cons_self _ _) h1 h2
          · rw [if_neg h4] at hres; exact absurd hres (by simp)

/-- Resolving a list of plain segments (no dot tokens) that actually leads
somewhere in the tree just appends them to the starting path. -/
theorem resolveParts_descend {t : VFSNode} (names : List String) :
    ∀ cur : List String, (findNode t (cur ++ names)).isSome →
      (∀ s ∈ names, s ≠ "." ∧ s ≠ "..") →
      resolveParts t cur names = some (cur ++ names) := by
  induction names with
  | nil => intro cur _ _; simp [resolveParts]
  | cons s names ih =>
    intro cur hsome hnames
    obtain ⟨hdot, hdotdot⟩ := hnames s (List.mem_cons_self _ _)
    rw [resolveParts, if_neg hdot, if_neg hdotdot]
    have hcur : (findNode t cur).isSome := by
      have : cur ++ s :: names = (cur ++ [s]) ++ names := by simp
      rw [this] at hsome
      exact isSome_findNode_front (isSome_findNode_front hsome)
    cases hf : findNode t cur with
    | none => rw [hf] at hcur; simp at hcur
    | some n =>
      have hchild : (n.getChild s).isSome := by
        have h1 : (findNode t (cur ++ [s])).isSome := by
          have : cur ++ s :: names = (cur ++ [s]) ++ names := by simp
          rw [this] at hsome
          exact isSome_findNode_front hsome
        rw [findNode_append, hf] at h1
        cases hg : n.getChild s with
        | none => simp [findNode, hg] at h1
        | some c => simp
      simp only [hf]
      rw [if_pos hchild]
      have happ : (cur ++ [s]) ++ names = cur ++ s :: names := by simp
      rw [ih (cur ++ [s]) (by rw [happ]; exact hsome)
        (fun q hq => hnames q (List.mem_cons_of_mem _ hq)), happ]

/-! String and tokenizer facts. -/

theorem string_data_inj {s t : String} (h : s.data = t.data) : s = t :=
  congrArg String.mk h

theorem string_ne_of_data_ne {s t : String} (h : s.data ≠ t.data) : s ≠ t :=
  fun he => h (by rw [he])

theorem mem_splitSlashAux_no_slash :
    ∀ (cs acc l : List Char), '/' ∉ acc → l ∈ splitSlashAux cs acc →
      '/' ∉ l := by
  intro cs
  induction cs with
  | nil =>
    intro acc l hacc hl
    rw [splitSlashAux, List.mem_singleton] at hl
    subst hl
    simpa using hacc
  | cons c rest ih =>
    intro acc l hacc hl
    rw [splitSlashAux] at hl
    by_cases hc : c = '/'
    · rw [if_pos hc] at hl
      rcases List.mem_cons.mp hl with hl | hl
      · subst hl; simpa using hacc
      · exact ih [] l (by simp) hl
    · rw [if_neg hc] at hl
      exact ih (c :: acc) l (by simpa using ⟨fun h => hc h.symm, hacc⟩) hl

theorem mem_splitSlash_no_slash {cs l : List Char} (h : l ∈ splitSlash cs) :
    '/' ∉ l :=
  mem_splitSlashAux_no_slash cs [] l (by simp) h

theorem mem_posixSegsL {cs l : List Char} (h : l ∈ posixSegsL cs) :
    l ≠ [] ∧ l ≠ ['.'] ∧ '/' ∉ l := by
  rw [posixSegsL, List.mem_filter] at h
  obtain ⟨hmem, hp⟩ := h
  have := of_decide_eq_true hp
  exact ⟨this.1, this.2, mem_splitSlash_no_slash hmem⟩

/-- The non-anchor parts fed to resolution are nonempty and slash-free. -/
theorem mem_posixSegs_string {cs : List Char} {s : String}
    (h : s ∈ (posixSegsL cs).map String.mk) :
    s ≠ "" ∧ '/' ∉ s.data := by
  rcases List.mem_map.mp h with ⟨l, hl, rfl⟩
  obtain ⟨h1, _, h3⟩ := mem_posixSegsL hl
  exact ⟨string_ne_of_data_ne (by simpa using h1), h3⟩

theorem isAbsolute_iff {s : String} :
    isAbsolute s = true ↔ s.data.head? = some '/' := by
  rw [isAbsolute, decide_eq_true_iff]

theorem posixParts_abs_drop {path : String} (h : isAbsolute path = true) :
    (posixParts path).drop 1 = (posixSegsL path.data).map String.mk := by
  rw [posixParts, posixPartsL, if_pos (isAbsolute_iff.mp h)]
  rfl

theorem posixParts_rel {path : String} (h : isAbsolute path = false) :
    posixParts path = (posixSegsL path.data).map String.mk := by
  rw [posixParts, posixPartsL,
    if_neg (fun hc => by rw [isAbsolute_iff.mpr hc] at h; exact absurd h (by simp))]

theorem splitSlashAux_append {l : List Char} (hl : '/' ∉ l) :
    ∀ (cs acc : List Char),
      splitSlashAux (l ++ cs) acc = splitSlashAux cs (l.reverse ++ acc) := by
  induction l with
  | nil => intro cs acc; simp
  | cons c l ihl =>
    intro cs acc
    have hc : ¬c = '/' := fun h => hl (by simp [h])
    rw [List.cons_append, splitSlashAux, if_neg hc,
      ihl (fun h => hl (List.mem_cons_of_mem _ h)) cs (c :: acc)]
    simp

theorem splitSlash_no_slash {l : List Char} (hl : '/' ∉ l) :
    splitSlash l = [l] := by
  rw [splitSlash, ← List.append_nil l, splitSlashAux_append hl, splitSlashAux]
  simp

theorem splitSlash_cons_slash (cs : List Char) :
    splitSlash ('/' :: cs) = [] :: splitSlash cs := by
  rw [splitSlash, splitSlashAux, if_pos rfl]
  rfl

theorem joinSlash_cons_of_ne_nil (l : List Char) {L : List (List Char)}
    (h : L ≠ []) : joinSlash (l :: L) = l ++ '/' :: joinSlash L := by
  cases L with
  | nil => exact absurd rfl h
  | cons x xs => rfl

theorem splitSlash_joinSlash :
    ∀ L : List (List Char), L ≠ [] → (∀ l ∈ L, l ≠ [] ∧ '/' ∉ l) →
      splitSlash (joinSlash L) = L := by
  intro L
  induction L with
  | nil => intro h; exact absurd rfl h
  | cons l L ih =>
    intro _ hall
    obtain ⟨hlne, hlns⟩ := hall l (List.mem_cons_self _ _)
    cases hL : L with
    | nil => rw [joinSlash]; exact splitSlash_no_slash hlns
    | cons x xs =>
      rw [← hL, joinSlash_cons_of_ne_nil l (by rw [hL]; simp), splitSlash,
        splitSlashAux_append hlns, List.append_nil, splitSlashAux, if_pos rfl,
        List.reverse_reverse]
      have : splitSlashAux (joinSlash L) [] = splitSlash (joinSlash L) := rfl
      rw [this, ih (by rw [hL]; simp)
        (fun q hq => hall q (List.mem_cons_of_mem _ hq))]

theorem joinSlash_head {l : List Char} (L : List (List Char)) (hl : l ≠ []) :
    (joinSlash (l :: L)).head? = l.head? := by
  cases L with
  | nil => rw [joinSlash]
  | cons x xs =>
    rw [joinSlash_cons_of_ne_nil l (by simp), List.head?_append]
    cases hh : l.head? with
    | none => rw [List.head?_eq_none_iff] at hh; exact absurd hh hl
    | some c => rfl

theorem map_mk_map_data (names : List String) :
    (names.map String.data).map String.mk = names := by
  induction names with
  | nil => rfl
  | cons s rest ih =>
    simp only [List.map_cons]
    rw [ih]

/-- Re-tokenising a rendered current path recovers the anchor followed by
the original segments, provided every segment is an ordinary name. -/
theorem posixParts_render {names : List String} (hne : names ≠ [])
    (hall : ∀ s ∈ names, normalSeg s) :
    posixParts (String.mk ('/' :: joinSlash (names.map String.data))) =
      "/" :: names := by
  obtain ⟨n1, rest, rfl⟩ := List.exists_cons_of_ne_nil hne
  obtain ⟨hd1, hd2, _, _⟩ := hall n1 (List.mem_cons_self _ _)
  have hJhead : (joinSlash ((n1 :: rest).map String.data)).head? =
      n1.data.head? := by
    rw [List.map_cons]
    exact joinSlash_head _ hd1
  obtain ⟨c, cs, hh⟩ : ∃ c cs, n1.data = c :: cs := by
    cases hx : n1.data with
    | nil => exact absurd hx hd1
    | cons c cs => exact ⟨c, cs, rfl⟩
  have hcne : c ≠ '/' := by
    intro hc
    rw [hh, hc] at hd2
    exact hd2 (by simp)
  obtain ⟨J', hJ⟩ : ∃ J', joinSlash ((n1 :: rest).map String.data) = c :: J' := by
    have h1 : (joinSlash ((n1 :: rest).map String.data)).head? = some c := by
      rw [hJhead, hh]; rfl
    cases hcase : joinSlash ((n1 :: rest).map String.data) with
    | nil => rw [hcase] at h1; simp at h1
    | cons j J2 =>
      rw [hcase] at h1
      simp at h1
      exact ⟨J2, by rw [h1]⟩
  have hanchor :
      posixAnchor ('/' :: joinSlash ((n1 :: rest).map String.data)) = ['/'] := by
    rw [posixAnchor, hJ]
    rw [if_neg (by simp [hcne]), if_neg (by simp [hcne])]
  have hsegs :
      posixSegsL ('/' :: joinSlash ((n1 :: rest).map String.data)) =
        (n1 :: rest).map String.data := by
    rw [posixSegsL, splitSlash_cons_slash,
      splitSlash_joinSlash _ (by simp)
        (by intro l hl
            rcases List.mem_map.mp hl with ⟨s, hs, rfl⟩
            obtain ⟨h1, h2, _, _⟩ := hall s hs
            exact ⟨h1, h2⟩),
      List.filter_cons]
    rw [if_neg (by simp)]
    apply List.filter_eq_self.mpr
    intro l hl
    rcases List.mem_map.mp hl with ⟨s, hs, rfl⟩
    obtain ⟨h1, _, h3, _⟩ := hall s hs
    exact decide_eq_true ⟨h1, fun hdot => h3 (string_data_inj (by rw [hdot]))⟩
  have hmk : posixParts (String.mk ('/' :: joinSlash ((n1 :: rest).map String.data)))
      = (posixPartsL ('/' :: joinSlash ((n1 :: rest).map String.data))).map
          String.mk := rfl
  rw [hmk, posixPartsL,
    if_pos
      (show ('/' :: joinSlash ((n1 :: rest).map String.data)).head? = some '/'
        from rfl),
    hanchor, hsegs, List.map_cons, map_mk_map_data]

/-! The reachability invariant over public-operation sequences. -/

/-- The cursor invariant: `currentDir` is a valid root path (the node the
Python reference points at exists in the tree) and all of its segments are
ordinary names (resolution can only ever move the cursor onto such paths:
`".."` and `"."` are interpreted, the anchor is skipped, and split segments
never contain `'/'`). -/
def InvN (v : VFS) : Prop :=
  (findNode v.root v.currentDir).isSome = true ∧ ∀ s ∈ v.currentDir, normalSeg s

theorem invN_init : InvN initVFS := by
  constructor
  · rfl
  · intro s hs
    simp [initVFS] at hs

theorem create_path_eq (v : VFS) (path : String) (d : Bool) (ct : String) :
    create_path v path d ct =
      match (posixParts path).getLast? with
      | none => v
      | some last =>
        ⟨create_nodes v.root (posixParts path).dropLast last d ct,
         v.currentDir⟩ := by
  cases h : (posixParts path).getLast? with
  | none => simp [create_path, create_path_run, h]
  | some last => simp [create_path, create_path_run, h]

/-- A successful resolution, started from a state satisfying the cursor
invariant, lands on a valid root path all of whose segments are ordinary
names. -/
theorem resolve_path_invN {v : VFS} {path : String} {p : List String}
    (hv : InvN v) (hres : resolve_path v path = some p) :
    (findNode v.root p).isSome = true ∧ ∀ s ∈ p, normalSeg s := by
  rw [resolve_path] at hres
  by_cases habs : isAbsolute path = true
  · rw [if_pos habs] at hres
    refine ⟨isSome_findNode_resolveParts _ [] p (by simp [findNode]) hres, ?_⟩
    refine resolveParts_mem normalSeg _ [] p (by simp) ?_ hres
    intro part hpart h1 h2
    rw [posixParts_abs_drop habs] at hpart
    obtain ⟨hne, hns⟩ := mem_posixSegs_string hpart
    exact ⟨fun hd => hne (string_data_inj hd), hns, h1, h2⟩
  · rw [if_neg habs] at hres
    refine ⟨isSome_findNode_resolveParts _ v.currentDir p hv.1 hres, ?_⟩
    refine resolveParts_mem normalSeg _ v.currentDir p hv.2 ?_ hres
    intro part hpart h1 h2
    rw [posixParts_rel (Bool.not_eq_true _ ▸ habs)] at hpart
    obtain ⟨hne, hns⟩ := mem_posixSegs_string hpart
    exact ⟨fun hd => hne (string_data_inj hd), hns, h1, h2⟩

theorem invN_step (v : VFS) (op : Op) (hv : InvN v) : InvN (step v op) := by
  cases op with
  | create p d c =>
    show InvN (create_path v p d c)
    rw [create_path_eq]
    cases hl : (posixParts p).getLast? with
    | none => exact hv
    | some last =>
      exact ⟨isSome_findNode_create v.currentDir v.root
        (posixParts p).dropLast last d c hv.1, hv.2⟩
  | cd p =>
    show InvN (change_directory v p).1
    rw [change_directory]
    by_cases h1 : p = ".."
    · rw [if_pos h1]
      by_cases h2 : v.currentDir = []
      · rw [if_pos h2]; exact hv
      · rw [if_neg h2]
        exact ⟨isSome_findNode_dropLast hv.1,
          fun s hs => hv.2 s (List.dropLast_subset _ hs)⟩
    · rw [if_neg h1]
      by_cases h2 : p = "~" ∨ p = "/"
      · rw [if_pos h2]
        exact ⟨by simp [findNode], by simp⟩
      · rw [if_neg h2]
        cases hres : resolve_path v p with
        | none => exact hv
        | some pth =>
          simp only [hres]
          cases hf : findNode v.root pth with
          | none => exact hv
          | some n =>
            simp only [hf]
            by_cases hd : n.is_directory = true
            · rw [if_pos hd]
              show (findNode v.root pth).isSome = true ∧ ∀ s ∈ pth, normalSeg s
              exact resolve_path_invN hv hres
            · rw [if_neg hd]
              exact hv
  | ls p => exact hv
  | cat p => exact hv
  | find s p => exact hv
  | tree p => exact hv

theorem invN_foldl : ∀ (l : List Op) (v : VFS), InvN v → InvN (l.foldl step v) := by
  intro l
  induction l with
  | nil => intro v hv; exact hv
  | cons op rest ih => intro v hv; exact ih (step v op) (invN_step v op hv)

theorem invN_runOps (ops : List Op) : InvN (runOps ops) :=
  invN_foldl ops initVFS invN_init

/-- The current-path round trip for any state satisfying the cursor
invariant: rendering the current path and resolving it again lands exactly
on the current directory. -/
theorem resolve_current {v : VFS} (hv : InvN v) :
    resolve_path v (get_current_path v) = some v.currentDir := by
  by_cases h : v.currentDir = []
  · rw [get_current_path, if_pos h, h, resolve_path, if_pos (by decide)]
    rfl
  · rw [get_current_path, if_neg h, resolve_path,
      if_pos (by rw [isAbsolute]; exact decide_eq_true rfl),
      posixParts_render h hv.2, List.drop_one, List.tail_cons]
    have := resolveParts_descend (t := v.root) v.currentDir []
      (by simpa using hv.1)
      (fun s hs => ⟨(hv.2 s hs).2.2.1, (hv.2 s hs).2.2.2⟩)
    simpa using this

/-! Resolution never inspects `is_directory` flags or contents. -/

theorem mapMetaN_mk (f : Bool → Bool) (g : String → String) (n : String)
    (d : Bool) (c : String) (ch : List VFSNode) :
    mapMetaN f g (.mk n d c ch) = .mk n (f d) (g c) (ch.map (mapMetaN f g)) := by
  rw [mapMetaN]
  congr 1
  exact List.attach_map_val ch (mapMetaN f g)

theorem mapMetaN_name (f : Bool → Bool) (g : String → String) (nd : VFSNode) :
    (mapMetaN f g nd).name = nd.name := by
  cases nd
  rw [mapMetaN_mk]
  rfl

theorem getChild_mapMetaN (f : Bool → Bool) (g : String → String)
    (nd : VFSNode) (s : String) :
    (mapMetaN f g nd).getChild s = (nd.getChild s).map (mapMetaN f g) := by
  cases nd with
  | mk n d c ch =>
    rw [mapMetaN_mk, getChild_eq_find?, getChild_eq_find?]
    simp only [VFSNode.children_mk]
    have hp : ((fun (c : VFSNode) => c.name == s) ∘ mapMetaN f g) =
        (fun (c : VFSNode) => c.name == s) :=
      funext fun x => by rw [Function.comp_apply, mapMetaN_name]
    rw [List.find?_map, hp]

theorem findNode_mapMetaN (f : Bool → Bool) (g : String → String) :
    ∀ (p : List String) (t : VFSNode),
      findNode (mapMetaN f g t) p = (findNode t p).map (mapMetaN f g) := by
  intro p
  induction p with
  | nil => intro t; rfl
  | cons s rest ih =>
    intro t
    rw [findNode, findNode, getChild_mapMetaN]
    cases h : t.getChild s with
    | none => rfl
    | some c => exact ih c

theorem resolveParts_mapMetaN (f : Bool → Bool) (g : String → String)
    (t : VFSNode) :
    ∀ (parts cur : List String),
      resolveParts (mapMetaN f g t) cur parts = resolveParts t cur parts := by
  intro parts
  induction parts with
  | nil => intro cur; rfl
  | cons part rest ih =>
    intro cur
    rw [resolveParts, resolveParts]
    by_cases h1 : part = "."
    · rw [if_pos h1, if_pos h1, ih]
    · rw [if_neg h1, if_neg h1]
      by_cases h2 : part = ".."
      · rw [if_pos h2, if_pos h2]
        by_cases h3 : cur = []
        · rw [if_pos h3, if_pos h3]
        · rw [if_neg h3, if_neg h3, ih]
      · rw [if_neg h2, if_neg h2, findNode_mapMetaN]
        cases h : findNode t cur with
        | none => rfl
        | some n =>
          show (if ((mapMetaN f g n).getChild part).isSome = true then
              resolveParts (mapMetaN f g t) (cur ++ [part]) rest else none) =
            (if (n.getChild part).isSome = true then
              resolveParts t (cur ++ [part]) rest else none)
          rw [getChild_mapMetaN]
          by_cases h4 : (n.getChild part).isSome
          · rw [if_pos (by simpa using h4), if_pos h4, ih]
          · rw [if_neg (by simpa using h4), if_neg h4]

/-! `get_path` helper facts. -/

theorem head_ne_slash {a : String} (hs : '/' ∉ a.data) :
    a.data.head? ≠ some '/' := by
  intro h
  exact hs (List.mem_of_mem_head? h)

theorem get_path_append_singleton (names : List String) (a : String) :
    get_path (names ++ [a]) = pathJoin (get_path names) a := by
  rw [get_path, get_path, List.foldl_append]
  rfl

theorem get_path_plain :
    ∀ names : List String, (∀ s ∈ names, s ≠ "" ∧ '/' ∉ s.data) →
      names ≠ [] →
      get_path names ≠ "" ∧ (get_path names).data.getLast? ≠ some '/' := by
  intro names
  induction names using List.reverseRecOn with
  | nil => intro _ h; exact absurd rfl h
  | append_singleton l a ih =>
    intro hall _
    obtain ⟨hane, hans⟩ := hall a (by simp)
    have hhead := head_ne_slash hans
    have halast : a.data.getLast? ≠ some '/' := by
      intro h
      exact hans (List.mem_of_mem_getLast? h)
    rw [get_path_append_singleton, pathJoin]
    rw [if_neg hhead]
    by_cases hl : l = []
    · subst hl
      rw [if_pos (show get_path ([] : List String) = "" from rfl)]
      exact ⟨hane, halast⟩
    · obtain ⟨hpne, hplast⟩ :=
        ih (fun s hs => hall s (List.mem_append_left _ hs)) hl
      rw [if_neg hpne, if_neg hplast]
      constructor
      · intro hcontra
        have : (get_path l ++ "/" ++ a).data = [] := by rw [hcontra]
        rw [String.data_append, String.data_append] at this
        simp at this
      · rw [String.data_append, String.data_append, List.append_assoc,
          List.getLast?_append]
        cases hlast : a.data.getLast? with
        | none =>
          rw [List.getLast?_eq_none_iff] at hlast
          exact absurd (string_data_inj (by rw [hlast])) hane
        | some x =>
          have hx : x ≠ '/' := by
            intro hxe
            exact halast (by rw [hlast, hxe])
          rw [List.getLast?_append, hlast]
          simpa using hx

/-- The recurrence actually implemented by `get_path` on ordinary segment
names: the root contributes `""`, and each further segment is appended with
a `/` separator — so no leading slash ever appears for plainly named
nodes. -/
theorem get_path_step (names : List String) (a : String)
    (hall : ∀ s ∈ names, s ≠ "" ∧ '/' ∉ s.data)
    (hans : '/' ∉ a.data) :
    get_path (names ++ [a]) =
      if names = [] then a else get_path names ++ "/" ++ a := by
  rw [get_path_append_singleton, pathJoin, if_neg (head_ne_slash hans)]
  by_cases hl : names = []
  · subst hl
    rw [if_pos (show get_path ([] : List String) = "" from rfl), if_pos rfl]
  · obtain ⟨hpne, hplast⟩ := get_path_plain names hall hl
    rw [if_neg hpne, if_neg hplast, if_neg hl]

/-! Preservation of the root node's (empty) name across operations. -/

theorem root_name_step (v : VFS) (op : Op) :
    (step v op).root.name = v.root.name := by
  cases op with
  | create p d c =>
    show (create_path v p d c).root.name = _
    rw [create_path_eq]
    cases hl : (posixParts p).getLast? with
    | none => rfl
    | some last => exact create_nodes_name _ _ _ _ _
  | cd p =>
    show (change_directory v p).1.root.name = _
    rw [change_directory]
    by_cases h1 : p = ".."
    · rw [if_pos h1]
      by_cases h2 : v.currentDir = []
      · rw [if_pos h2]
      · rw [if_neg h2]
    · rw [if_neg h1]
      by_cases h2 : p = "~" ∨ p = "/"
      · rw [if_pos h2]
      · rw [if_neg h2]
        cases hres : resolve_path v p with
        | none => rfl
        | some pth =>
          simp only [hres]
          cases hf : findNode v.root pth with
          | none => rfl
          | some n =>
            simp only [hf]
            by_cases hd : n.is_directory = true
            · rw [if_pos hd]
            · rw [if_neg hd]
  | ls p => rfl
  | cat p => rfl
  | find s p => rfl
  | tree p => rfl

theorem root_name_runOps (ops : List Op) : (runOps ops).root.name = "" := by
  have haux : ∀ (l : List Op) (v : VFS), (l.foldl step v).root.name =
      v.root.name := by
    intro l
    induction l with
    | nil => intro v; rfl
    | cons op rest ih => intro v; rw [List.foldl_cons, ih, root_name_step]
  exact haux ops initVFS

/-- The node found at a nonempty root path bears the path's final segment
as its name (child lookup matches on names). -/
theorem findNode_last_name {t : VFSNode} {q : List String} {s : String}
    {n : VFSNode} (h : findNode t (q ++ [s]) = some n) : n.name = s := by
  rw [findNode_append] at h
  cases hf : findNode t q with
  | none => rw [hf] at h; exact absurd h (by simp)
  | some m =>
    rw [hf] at h
    replace h : findNode m [s] = some n := h
    cases hg : m.getChild s with
    | none => simp [findNode, hg] at h
    | some c =>
      simp only [findNode, hg, Option.some.injEq] at h
      subst h
      exact getChild_name hg

/-! The claims. -/

/-- Claim C1 (code bug): the claimed round trip fails on the code.  Loading
`path=/docs/readme.txt` (leading slash) and then reading
`/docs/readme.txt` returns none, not the decoded content: `Path(path).parts`
includes the anchor `'/'` as a first component, so `_create_path` installs a
literal child named `"/"` under the root and buries the file beneath it,
while `_resolve_path` skips the anchor (`parts[1:]`) and so never finds it.
The same row without the leading slash works, refuting the claimed
equivalence of the two path forms.  The third conjunct exhibits the stray
`"/"`-named child. -/
theorem claim_C1_failing : ∀ content : String,
    read_file (create_path initVFS "/docs/readme.txt" false content)
        "/docs/readme.txt" = none ∧
    read_file (create_path initVFS "docs/readme.txt" false content)
        "/docs/readme.txt" = some content ∧
    (create_path initVFS "/docs/readme.txt" false content).root.children.map
        VFSNode.name = ["/"] :=
  fun _ => ⟨rfl, rfl, rfl⟩

/-- Claim C2 (confirmed): during `_create_path`, an intermediate segment that
names an existing file child coerces that child into a directory, clearing
its content and setting the directory flag; concretely, after creating `/a`
as a file and then `/a/b` as a file, the node created for segment `a` is a
directory with empty content, and `readFile("/a")` returns none. -/
theorem claim_C2 :
    (∀ (n : VFSNode) (p : String) (rest : List String) (last : String)
        (d : Bool) (ct : String) (c : VFSNode),
      n.getChild p = some c → c.is_directory = false →
      ∃ c', (create_nodes n (p :: rest) last d ct).getChild p = some c' ∧
        c'.is_directory = true ∧ c'.content = "") ∧
    findNode (create_path (create_path initVFS "/a" false "x") "/a/b" false
        "y").root ["/", "a"]
      = some (.mk "a" true "" [.mk "b" false "y" []]) ∧
    read_file (create_path (create_path initVFS "/a" false "x") "/a/b" false
        "y") "/a" = none := by
  refine ⟨?_, rfl, rfl⟩
  intro n p rest last d ct c hc hfile
  rw [create_nodes]
  simp only [hc, hfile, Bool.false_eq_true, if_false]
  refine ⟨create_nodes (.mk c.name true "" c.children) rest last d ct,
    getChild_setChild_same ?_ hc, ?_, ?_⟩
  · rw [create_nodes_name, VFSNode.name_mk]
    exact getChild_name hc
  · rw [(create_nodes_meta rest _ last d ct).2.1, VFSNode.is_directory_mk]
  · rw [(create_nodes_meta rest _ last d ct).2.2, VFSNode.content_mk]

/-- Witness for C2: coercing the file child `a` of a root holding `a` (a
file with content `x`) while creating `a/b` yields a directory child with
empty content. -/
theorem claim_C2_witness :
    ∃ c', (create_nodes (VFSNode.mk "" true "" [VFSNode.mk "a" false "x" []])
        ["a"] "b" false "y").getChild "a" = some c' ∧
      c'.is_directory = true ∧ c'.content = "" :=
  claim_C2.1 (VFSNode.mk "" true "" [VFSNode.mk "a" false "x" []]) "a" [] "b"
    false "y" (VFSNode.mk "a" false "x" []) rfl rfl

/-- Counterexample to C3: after creating `a/b` as a file and then
overwriting `a` as a file (its children are retained), resolving `a/b`
succeeds — it returns the path of `b` — even though traversal passes
through the file node `a`; the claim said such a resolution returns none. -/
theorem claim_C3_counterexample :
    resolve_path (create_path (create_path initVFS "a/b" false "x") "a" false
        "y") "a/b" = some ["a", "b"] ∧
    findNode (create_path (create_path initVFS "a/b" false "x") "a" false
        "y").root ["a"]
      = some (.mk "a" false "y" [.mk "b" false "x" []]) :=
  ⟨rfl, rfl⟩

/-- Claim C3 (corrected): `_resolve_path` never inspects `is_directory` (or
`content`) — resolution is invariant under arbitrary relabelling of every
node's directory flag and content — so a file node's non-empty children map
IS traversed through; resolution fails (with none, never an exception: the
model is a total function) only on a missing child name or on `".."` at the
root. -/
theorem claim_C3 :
    ∀ (f : Bool → Bool) (g : String → String) (v : VFS) (path : String),
      resolve_path (mapMetaV f g v) path = resolve_path v path := by
  intro f g v path
  rw [resolve_path, resolve_path]
  by_cases h : isAbsolute path = true
  · rw [if_pos h, if_pos h]
    exact resolveParts_mapMetaN f g v.root _ []
  · rw [if_neg h, if_neg h]
    exact resolveParts_mapMetaN f g v.root _ v.currentDir

/-- Counterexample to C4: on failed resolution `list_directory` returns the
empty list — the very value a successful listing of an empty directory
returns — not a distinguishable none sentinel (the target selection does
fail, as the third conjunct shows, but the failure is collapsed to `[]`). -/
theorem claim_C4_counterexample :
    list_directory initVFS "/nonexistent" = list_directory initVFS "" ∧
    list_directory initVFS "/nonexistent" = [] ∧
    lsTarget initVFS "/nonexistent" = none :=
  ⟨rfl, rfl, rfl⟩

/-- Claim C4 (corrected): `list_directory` returns the empty list — not a
distinct failure sentinel — whenever resolution of the path fails or the
resolved node is not a directory; an empty path lists the current
directory. -/
theorem claim_C4 : ∀ (v : VFS) (path : String),
    (lsTarget v path = none → list_directory v path = []) ∧
    (∀ n, lsTarget v path = some n → n.is_directory = false →
      list_directory v path = []) ∧
    (∀ n, lsTarget v path = some n → n.is_directory = true →
      list_directory v path = entriesOf n) ∧
    lsTarget v "" = findNode v.root v.currentDir := by
  intro v path
  refine ⟨?_, ?_, ?_, ?_⟩
  · intro h
    rw [list_directory, h]
  · intro n h hd
    simp only [list_directory, h]
    rw [if_neg (by rw [hd]; simp)]
  · intro n h hd
    simp only [list_directory, h]
    rw [if_pos hd]
  · rw [lsTarget, if_pos rfl]

/-- Witness for C4: listing the unresolvable `/nonexistent` in the fresh
state yields the empty list, and the empty path targets the current
directory. -/
theorem claim_C4_witness :
    list_directory initVFS "/nonexistent" = [] ∧
    lsTarget initVFS "" = findNode initVFS.root initVFS.currentDir :=
  ⟨(claim_C4 initVFS "/nonexistent").1 rfl,
   (claim_C4 initVFS "/nonexistent").2.2.2⟩

/-- Counterexample to C5: resolving `"/.."` on the fresh filesystem returns
none, not the root node (whose path is `[]`): in `_resolve_path` a `".."`
consumed at the root — whose parent is absent — aborts with none. -/
theorem claim_C5_counterexample :
    resolve_path initVFS "/.." = none ∧
    resolve_path initVFS "/.." ≠ some [] :=
  ⟨rfl, by decide⟩

/-- Claim C5 (corrected): consuming a `".."` segment while the current node
is the root is a failure in `_resolve_path` — resolution returns none
immediately, whatever segments remain — so `resolvePath("/..")` returns
none; the no-op-success treatment of `".."` at the root belongs to
`change_directory(".."")`, which leaves the cursor at the root and reports
success. -/
theorem claim_C5 :
    (∀ (t : VFSNode) (rest : List String),
      resolveParts t [] (".." :: rest) = none) ∧
    (∀ v : VFS, v.currentDir = [] → change_directory v ".." = (v, true)) := by
  constructor
  · intro t rest
    rw [resolveParts, if_neg (by decide), if_pos rfl, if_pos rfl]
  · intro v h
    rw [change_directory, if_pos rfl, if_pos h]

/-- Witness for C5: in the fresh state, resolving a lone `".."` from the
root fails while `change_directory("..")` succeeds without moving. -/
theorem claim_C5_witness :
    resolveParts initVFS.root [] [".."] = none ∧
    change_directory initVFS ".." = (initVFS, true) :=
  ⟨claim_C5.1 initVFS.root [], claim_C5.2 initVFS rfl⟩

/-- Counterexample to C6: the operation sequence "create directory `a/b`,
change into it, then reload `a/b` as a file" leaves `currentDirectory`
pointing at a node whose directory flag is false — `_create_path`'s
last-write-wins overwrite flips the flag of the very node the cursor
references, so the claimed invariant fails on a reachable state. -/
theorem claim_C6_counterexample :
    findNode (runOps [Op.create "a/b" true "", Op.cd "a/b",
        Op.create "a/b" false "z"]).root
      (runOps [Op.create "a/b" true "", Op.cd "a/b",
        Op.create "a/b" false "z"]).currentDir
      = some (.mk "b" false "z" []) ∧
    (VFSNode.mk "b" false "z" []).is_directory = false :=
  ⟨rfl, rfl⟩

/-- Claim C6 (corrected): in every state reachable by a sequence of the
public operations the current directory is a valid root path — the node the
cursor references exists in the tree — and the resolving branch of
`change_directory` only ever moves the cursor onto a directory node; but
the directory-flag half of the claimed invariant is not preserved, because
`_create_path` can overwrite the referenced node's flag in place. -/
theorem claim_C6 :
    (∀ ops : List Op,
      (findNode (runOps ops).root (runOps ops).currentDir).isSome = true) ∧
    (∀ (v : VFS) (path : String),
      path ≠ ".." → ¬(path = "~" ∨ path = "/") →
      (change_directory v path).2 = true →
      ∃ n, findNode (change_directory v path).1.root
          (change_directory v path).1.currentDir = some n ∧
        n.is_directory = true) := by
  constructor
  · intro ops
    exact (invN_runOps ops).1
  · intro v path h1 h2 hsucc
    rw [change_directory, if_neg h1, if_neg h2] at hsucc ⊢
    cases hres : resolve_path v path with
    | none =>
      simp only [hres] at hsucc
      exact absurd hsucc (by simp)
    | some pth =>
      simp only [hres] at hsucc ⊢
      cases hf : findNode v.root pth with
      | none =>
        simp only [hf] at hsucc
        exact absurd hsucc (by simp)
      | some n =>
        simp only [hf] at hsucc ⊢
        by_cases hd : n.is_directory = true
        · rw [if_pos hd]
          exact ⟨n, hf, hd⟩
        · rw [if_neg hd] at hsucc
          exact absurd hsucc (by simp)

/-- Witness for C6: changing directory to the empty path resolves to the
root, a directory, so the successful change lands the cursor on a directory
node. -/
theorem claim_C6_witness :
    ∃ n, findNode (change_directory initVFS "").1.root
        (change_directory initVFS "").1.currentDir = some n ∧
      n.is_directory = true :=
  claim_C6.2 initVFS "" (by decide) (by decide) rfl

/-- Claim C7 (confirmed): `_create_path` fails (the `parts[-1]` access
raises, the spec's `InvalidPathError`) exactly when the path tokenizes to
zero segments — for example the empty string — and in that case the state
is returned untouched: the intermediate-segment loop ran over the empty
list `parts[:-1]` and did nothing before the failure. -/
theorem claim_C7 : ∀ (v : VFS) (path : String) (d : Bool) (ct : String),
    ((create_path_run v path d ct).2 = true ↔ posixParts path = []) ∧
    (posixParts path = [] → create_path_run v path d ct = (v, true)) := by
  intro v path d ct
  cases h : (posixParts path).getLast? with
  | none =>
    rw [List.getLast?_eq_none_iff] at h
    have h2 : create_path_run v path d ct = (v, true) := by
      simp [create_path_run, h]
    exact ⟨by rw [h2]; exact ⟨fun _ => h, fun _ => rfl⟩, fun _ => h2⟩
  | some last =>
    have hne : posixParts path ≠ [] := by
      intro hc
      rw [hc] at h
      exact absurd h (by simp)
    have h2 : (create_path_run v path d ct).2 = false := by
      simp [create_path_run, h]
    exact ⟨by rw [h2]; exact ⟨fun hc => absurd hc (by simp),
      fun hc => absurd hc hne⟩, fun hc => absurd hc hne⟩

/-- Witness for C7: the empty string tokenizes to zero segments, the run is
flagged as raised, and the state is unchanged. -/
theorem claim_C7_witness :
    (create_path_run initVFS "" true "").2 = true ∧
    create_path_run initVFS "" true "" = (initVFS, true) :=
  ⟨(claim_C7 initVFS "" true "").1.mpr rfl, (claim_C7 initVFS "" true "").2 rfl⟩

/-- Counterexample to C8: `get_path` of the root alone is the empty string,
not `"/"`, and `get_path` of a root child `a` is `"a"`, not `"/a"` — the
reconstruction never produces the claimed leading slash (the root
contributes its empty name, and `str(Path('') / 'a')` is `'a'`). -/
theorem claim_C8_counterexample :
    get_path [] = "" ∧ ("" : String) ≠ "/" ∧
    get_path ["a"] = "a" ∧ ("a" : String) ≠ "/a" :=
  ⟨rfl, by decide, rfl, by decide⟩

/-- Claim C8 (corrected): `get_path` reconstructs the path by walking parent
references and joining the names with `"/"`, but without any leading slash:
the root alone yields `""`, and for ordinary slash-free names each
additional segment is appended after a `"/"` separator (the first segment
stands alone). -/
theorem claim_C8 :
    get_path [] = "" ∧
    ∀ (names : List String) (a : String),
      (∀ s ∈ names, s ≠ "" ∧ '/' ∉ s.data) → '/' ∉ a.data →
      get_path (names ++ [a]) =
        if names = [] then a else get_path names ++ "/" ++ a :=
  ⟨rfl, get_path_step⟩

/-- Witness for C8: the node at `docs/readme.txt` renders as
`"docs/readme.txt"` — the separator join with no leading slash. -/
theorem claim_C8_witness :
    get_path (["docs"] ++ ["readme.txt"]) =
      if (["docs"] : List String) = [] then "readme.txt"
      else get_path ["docs"] ++ "/" ++ "readme.txt" :=
  claim_C8.2 ["docs"] "readme.txt" (by decide) (by decide)

/-- Claim C9 (confirmed): in every state reachable from the fresh filesystem
by public operations, resolving the rendered current path returns exactly
the current directory (the resolved root path coincides with the cursor's
root path, hence denotes the same node, which exists in the tree). -/
theorem claim_C9 : ∀ ops : List Op,
    resolve_path (runOps ops) (get_current_path (runOps ops)) =
      some (runOps ops).currentDir ∧
    (findNode (runOps ops).root (runOps ops).currentDir).isSome = true :=
  fun ops => ⟨resolve_current (invN_runOps ops), (invN_runOps ops).1⟩

/-- Claim C10 (confirmed): `_create_path` happily installs a child literally
named `".."` (the tokenizer passes `".."` through and creation never
interprets it), yet no `_resolve_path` call can ever return such a node:
a successful resolution started from a `".."`-free cursor yields a path
without any `".."` segment, and the node at a path bears the path's final
segment as name (the root is named `""`), so the returned node is never
named `".."` — in particular in every reachable state. -/
theorem claim_C10 :
    (create_path initVFS ".." false "x").root.children
        = [VFSNode.mk ".." false "x" []] ∧
    (∀ (v : VFS) (path : String) (p : List String) (n : VFSNode),
      (∀ s ∈ v.currentDir, s ≠ "..") → v.root.name = "" →
      resolve_path v path = some p → findNode v.root p = some n →
      n.name ≠ "..") ∧
    (∀ (ops : List Op) (path : String) (p : List String) (n : VFSNode),
      resolve_path (runOps ops) path = some p →
      findNode (runOps ops).root p = some n → n.name ≠ "..") := by
  have hgen : ∀ (v : VFS) (path : String) (p : List String) (n : VFSNode),
      (∀ s ∈ v.currentDir, s ≠ "..") → v.root.name = "" →
      resolve_path v path = some p → findNode v.root p = some n →
      n.name ≠ ".." := by
    intro v path p n hcur hroot hres hfind
    have hmem : ∀ s ∈ p, s ≠ ".." := by
      rw [resolve_path] at hres
      by_cases habs : isAbsolute path = true
      · rw [if_pos habs] at hres
        exact resolveParts_mem (fun s => s ≠ "..") _ [] p (by simp)
          (fun part _ _ h2 => h2) hres
      · rw [if_neg habs] at hres
        exact resolveParts_mem (fun s => s ≠ "..") _ v.currentDir p hcur
          (fun part _ _ h2 => h2) hres
    rcases List.eq_nil_or_concat p with rfl | ⟨q, a, rfl⟩
    · replace hfind : some v.root = some n := hfind
      injection hfind with hfind
      rw [← hfind, hroot]
      decide
    · rw [List.concat_eq_append] at hfind
      rw [findNode_last_name hfind]
      exact hmem a (by rw [List.concat_eq_append]; simp)
  refine ⟨rfl, hgen, ?_⟩
  intro ops path p n hres hfind
  exact hgen (runOps ops) path p n
    (fun s hs => ((invN_runOps ops).2 s hs).2.2.2)
    (root_name_runOps ops) hres hfind

/-- Witness for C10: after creating the `".."`-named child, resolving the
empty path in that state returns the root, whose name is not `".."`. -/
theorem claim_C10_witness :
    (create_path initVFS ".." false "x").root.name ≠ ".." :=
  claim_C10.2.1 (create_path initVFS ".." false "x") "" []
    (create_path initVFS ".." false "x").root (by decide) rfl rfl rfl
